import Mathlib

/-!
# Verification of the ts-templates signature-protocol subsystem

A shallow embedding of the repository's `Lock` script template
(`src/Lock.ts`) and `Sigma` signature template (SIGMA codec, signer,
verifier), together with proofs of the specified properties.

Scripts are modelled by their binary serialization: a `List Nat` of
byte values.  JavaScript bitwise operators (`&`, `|`, `~`, `<<`, `>>`)
coerce their operands to 32-bit two's-complement integers; they are
modelled exactly by the `js*` functions below, over `Int` with explicit
reduction modulo `2 ^ 32`.

External collaborators (the `@bsv/sdk` cryptographic and encoding
primitives) are out of scope of the repository; the Sigma definitions
are parameterised over them via the `Sdk` structure, so every theorem
about Sigma holds for an arbitrary implementation of the collaborator
interface.
-/

/-! ## JavaScript 32-bit integer semantics -/

/-- `ToUint32`: reduce an integer to its unsigned 32-bit representative
(JS bitwise operators first coerce operands this way). -/
def toUInt32 (x : Int) : Nat := (x % (2 ^ 32 : Int)).toNat

/-- Reinterpret an unsigned 32-bit value as a signed (two's-complement)
32-bit integer, which is what JS bitwise operators return. -/
def int32OfUInt32 (u : Nat) : Int :=
  if u < 2 ^ 31 then (u : Int) else (u : Int) - 2 ^ 32

/-- `ToInt32`: JS 32-bit signed coercion. -/
def jsToInt32 (x : Int) : Int := int32OfUInt32 (toUInt32 x)

/-- JS `x & y`. -/
def jsAnd (a b : Int) : Int := int32OfUInt32 (toUInt32 a &&& toUInt32 b)

/-- JS `x | y`. -/
def jsOr (a b : Int) : Int := int32OfUInt32 (toUInt32 a ||| toUInt32 b)

/-- JS `~x`. -/
def jsNot (a : Int) : Int := int32OfUInt32 (toUInt32 a ^^^ 0xFFFFFFFF)

/-- JS `x << k` (shift count is taken mod 32). -/
def jsShl (a : Int) (k : Nat) : Int :=
  int32OfUInt32 ((toUInt32 a <<< (k % 32)) % 2 ^ 32)

/-- JS `x >> k`: arithmetic right shift, i.e. floor division of the
`ToInt32` value by `2 ^ (k % 32)`.  For a positive divisor, floor
division coincides with Lean's Euclidean `/` on `Int`. -/
def jsShr (a : Int) (k : Nat) : Int := jsToInt32 a / (2 ^ (k % 32) : Int)

/-! ## Script chunks

A script is serialized as a sequence of chunks; a chunk is an opcode
byte optionally followed by payload data (`{ op: number, data?: number[] }`
in the source). -/

/-- One script chunk: opcode plus optional push payload. -/
structure Chunk where
  op : Nat
  data : Option (List Nat)
deriving DecidableEq, Repr, Inhabited

/-- Serialized bytes of one chunk: the opcode byte followed by the
payload bytes (for the chunk shapes produced in this file the opcode of
a data chunk is its payload length, matching the sdk serialization). -/
def chunkBytes (c : Chunk) : List Nat := c.op :: c.data.getD []

/-- Serialized bytes of a chunk sequence. -/
def chunksBytes (cs : List Chunk) : List Nat := (cs.map chunkBytes).flatten

/-! ## Lock template (src/Lock.ts) -/

namespace Lock

/-- `LOCK_PREFIX` constant of `Lock.ts` (hex), as bytes. -/
def LOCK_PREFIX_BYTES : List Nat :=
  [0x20, 0xd3, 0x7f, 0x4d, 0xe0, 0xd1, 0xc7, 0x35, 0xb4, 0xd5,
   0x1a, 0x55, 0x72, 0xdf, 0x0f, 0x3d, 0x91, 0x04, 0xd1, 0xd9,
   0xe9, 0x9d, 0xb8, 0x69, 0x4f, 0xdd, 0x1b, 0x1a, 0x92, 0xe1,
   0xf0, 0xdc, 0xe1, 0x75, 0x76, 0x01, 0x68, 0x7f, 0x76, 0xa9]

/-- `LOCK_SUFFIX` constant of `Lock.ts` (hex), as bytes. -/
def LOCK_SUFFIX_BYTES : List Nat :=
  [0x88, 0xac, 0x7e, 0x76, 0x01, 0x20, 0x7f, 0x75, 0xa9, 0x01, 0x14, 0x88]

/-- Decoded Lock script data (`LockDecoded` in the source; the source
field `until` is a Lean keyword, rendered here as `untilH`). -/
structure LockDecoded where
  pkh : List Nat
  untilH : Int
deriving DecidableEq, Repr

/-- The byte-extraction loop of `encodeBlockHeight`:
`while (n > 0) { bytes.push(n & 0xff); n >>= 8 }`; each `n >>= 8`
shrinks the absolute value of the loop variable. -/
def leLoop (n : Int) : List Nat :=
  if h : 0 < n then (toUInt32 n &&& 0xff) :: leLoop (jsShr n 8)
  else []
termination_by n.natAbs
decreasing_by
  simp only [jsShr, jsToInt32, int32OfUInt32, toUInt32]
  norm_num
  split <;> omega

/-- `Lock.encodeBlockHeight` (private static of `Lock.ts`):
minimal script-number encoding of a block height, as chunks. -/
def encodeBlockHeight (height : Int) : List Chunk :=
  if height = 0 then [⟨0, none⟩]
  else if 1 ≤ height ∧ height ≤ 16 then [⟨(0x50 + height).toNat, none⟩]
  else if height = -1 then [⟨0x4f, none⟩]
  else
    let negative := height < 0
    let bytes0 := leLoop (if negative then -height else height)
    let bytes :=
      if bytes0.getLastD 0 &&& 0x80 ≠ 0 then
        bytes0 ++ [if negative then 0x80 else 0x00]
      else if negative then
        bytes0.dropLast ++ [bytes0.getLastD 0 ||| 0x80]
      else bytes0
    [⟨bytes.length, some bytes⟩]

/-- The accumulation loop of `decodeBlockHeight`:
`for (i...) result |= bytes[i] << (8 * i)`. -/
def accumLoop (acc : Int) (i : Nat) : List Nat → Int
  | [] => acc
  | b :: rest => accumLoop (jsOr acc (jsShl (b : Int) (8 * i))) (i + 1) rest

/-- `Lock.decodeBlockHeight` (private static of `Lock.ts`), over the
byte representation of the hex string it receives. -/
def decodeBlockHeight (bytes : List Nat) : Int :=
  if bytes.length = 0 then 0
  else
    let opcode := bytes.headD 0
    if opcode = 0 then 0
    else if 0x51 ≤ opcode ∧ opcode ≤ 0x60 then (opcode : Int) - 0x50
    else if opcode = 0x4f then -1
    else
      let data := (bytes.drop 1).take opcode
      if data.length = 0 then 0
      else
        let result := accumLoop 0 0 data
        if data.getLastD 0 &&& 0x80 ≠ 0 then
          -(jsAnd result (jsNot (jsShl 0x80 (8 * (data.length - 1)))))
        else result

/-- `Lock.isLock`: the script's bytes start with the fixed prefix and
end with the fixed suffix. -/
def isLock (script : List Nat) : Bool :=
  LOCK_PREFIX_BYTES.isPrefixOf script && LOCK_SUFFIX_BYTES.isSuffixOf script

/-- `Lock.decode`: fails unless `isLock`; otherwise slices the 20-byte
pkh right after the prefix and its push opcode, and the height field
between the pkh and the suffix. -/
def decode (script : List Nat) : Except String LockDecoded :=
  if isLock script then
    let pkhDataStart := LOCK_PREFIX_BYTES.length + 1
    let pkh := (script.drop pkhDataStart).take 20
    let untilStart := pkhDataStart + 20
    let suffixStart := script.length - LOCK_SUFFIX_BYTES.length
    let untilBytes := (script.drop untilStart).take (suffixStart - untilStart)
    Except.ok { pkh := pkh, untilH := decodeBlockHeight untilBytes }
  else Except.error "Script is not a valid Lock script"

/-- `Lock.lock`: prefix ++ push of the 20-byte pkh of the address ++
minimal encoding of the height ++ suffix.  Base58check address decoding
is a collaborator primitive, passed as `fromBase58Check`. -/
def lock (fromBase58Check : String → List Nat) (address : String)
    (untilHeight : Int) : List Nat :=
  LOCK_PREFIX_BYTES ++ (20 :: fromBase58Check address) ++
    chunksBytes (encodeBlockHeight untilHeight) ++ LOCK_SUFFIX_BYTES

end Lock

/-! ## The number-codec rules as the specification words them

Two renderings of the spec's encoder rules, used to compare the code
against the specification (refinement).  `natToLE` is the mathematical
little-endian byte string of a natural number. -/

/-- Little-endian base-256 digits of a natural number (empty for 0). -/
def natToLE (m : Nat) : List Nat :=
  if m = 0 then [] else m % 256 :: natToLE (m / 256)
termination_by m
decreasing_by exact Nat.div_lt_self (by omega) (by norm_num)

/-- Value of a little-endian byte string. -/
def leValue (bs : List Nat) : Nat := bs.foldr (fun b acc => b + 256 * acc) 0

/-- The claim's encoder rules exactly as stated, including the claim's
assertion that the zero-operation opcode is `0x50`: `n = 0` gives a
single zero-operation (opcode `0x50`, no payload); `1 ≤ n ≤ 16` a
single small-integer opcode `0x50 + n`; `n = -1` the negate opcode
`0x4f`; otherwise one data push whose payload is the magnitude in
little-endian bytes, extended by `0x00` when the top byte has its high
bit set, with the high bit of the final byte set when `n` is negative. -/
def numEncodeClaim (n : Int) : List Chunk :=
  if n = 0 then [⟨0x50, none⟩]
  else if 1 ≤ n ∧ n ≤ 16 then [⟨(0x50 + n).toNat, none⟩]
  else if n = -1 then [⟨0x4f, none⟩]
  else
    let mag := natToLE n.natAbs
    let ext := if 0x80 ≤ mag.getLastD 0 then mag ++ [0x00] else mag
    let payload :=
      if n < 0 then ext.dropLast ++ [ext.getLastD 0 ||| 0x80] else ext
    [⟨payload.length, some payload⟩]

/-- The spec's encoder rules with the zero-operation opcode corrected
to the byte the script format (and the code) actually uses for a
zero-length push, `0x00`; otherwise identical to `numEncodeClaim`. -/
def numEncodeSpec (n : Int) : List Chunk :=
  if n = 0 then [⟨0x00, none⟩]
  else if 1 ≤ n ∧ n ≤ 16 then [⟨(0x50 + n).toNat, none⟩]
  else if n = -1 then [⟨0x4f, none⟩]
  else
    let mag := natToLE n.natAbs
    let ext := if 0x80 ≤ mag.getLastD 0 then mag ++ [0x00] else mag
    let payload :=
      if n < 0 then ext.dropLast ++ [ext.getLastD 0 ||| 0x80] else ext
    [⟨payload.length, some payload⟩]

/-- The heights the spec's round-trip property enumerates. -/
def testHeights : List Int :=
  [0, 1, 15, 16, 127, 128, 255, 256, 65535, 500000, 800000, 2147483647]

/-! ## Sigma template (SIGMA codec / signer / verifier)

The `@bsv/sdk` primitives used by the Sigma template are collaborators
outside this repository; they are abstracted as the fields of `Sdk`
below, so all theorems hold for every implementation of the interface.
Opaque collaborator values (keys, parsed signatures) are wrapped in
one-field structures to keep them distinct types. -/

/-- An opaque collaborator public key. -/
structure PubKey where
  id : Nat
deriving DecidableEq, Inhabited

/-- An opaque collaborator private key. -/
structure PrivKey where
  id : Nat
deriving DecidableEq, Inhabited

/-- An opaque collaborator parsed signature (r, s). -/
structure Sig where
  id : Nat
deriving DecidableEq, Inhabited

/-- The collaborator interface used by the Sigma template.  Fallible
primitives (ones that may throw in JS) return `Option`. -/
structure Sdk where
  /-- `Script.fromBinary` followed by `.chunks`; `none` models a throw. -/
  fromBinary : List Nat → Option (List Chunk)
  /-- `Utils.toUTF8`. -/
  toUTF8 : List Nat → String
  /-- `parseInt(s, 10)` (its NaN result is abstracted as an integer). -/
  parseIntDec : String → Int
  /-- `privateKey.toAddress().toString()`. -/
  toAddress : PrivKey → String
  /-- `privateKey.toPublicKey()`. -/
  toPublicKey : PrivKey → PubKey
  /-- `BSM.sign(msg, priv, 'raw')`. -/
  bsmSign : List Nat → PrivKey → Sig
  /-- `new BigNumber(BSM.magicHash(msg))`: the magic-prefixed digest. -/
  magicHash : List Nat → Int
  /-- `sig.CalculateRecoveryFactor(pubKey, digest)`. -/
  calcRecoveryFactor : Sig → PubKey → Int → Nat
  /-- `sig.toCompact(recovery, compressed, 'base64')`. -/
  toCompactB64 : Sig → Nat → Bool → String
  /-- `Utils.toArray(s, 'base64')`. -/
  b64ToList : String → List Nat
  /-- `SignedMessage.sign(msg, priv, verifier?)` (BRC-77). -/
  signedMessageSign : List Nat → PrivKey → Option PubKey → List Nat
  /-- `SignedMessage.verify(msg, sig, recipient?)`; `none` models a throw. -/
  signedMessageVerify : List Nat → List Nat → Option PrivKey → Option Bool
  /-- `Utils.toBase64`. -/
  toBase64 : List Nat → String
  /-- `Signature.fromCompact(s, 'base64')`; `none` models a throw. -/
  fromCompactB64 : String → Option Sig
  /-- `sig.RecoverPublicKey(recovery, digest)`; `none` models a throw. -/
  recoverPublicKey : Sig → Nat → Int → Option PubKey
  /-- `BSM.verify(msg, sig, pubKey)`. -/
  bsmVerify : List Nat → Sig → PubKey → Bool
  /-- `publicKey.toAddress().toString()`. -/
  pubKeyToAddress : PubKey → String

/-- The `Algorithm` string enum of the `sigma-protocol` package. -/
def Algorithm.BSM : String := "BSM"

/-- The BRC-77 member of the `Algorithm` string enum. -/
def Algorithm.BRC77 : String := "BRC77"

namespace Sigma

/-- The SIGMA protocol identifier (`SIGMA_PREFIX` in the source). -/
def SIGMA_LABEL : String := "SIGMA"

/-- `SigmaData`: the record held by a `Sigma` instance. -/
structure SigmaData where
  bitcomIndex : Option Nat
  algorithm : String
  address : String
  signature : List Nat
  vin : Int
  valid : Option Bool
deriving DecidableEq

/-- `SigmaOptions` for `Sigma.sign`. -/
structure SigmaOptions where
  algorithm : Option String
  vin : Option Int
  verifier : Option PubKey

/-- One BitCom protocol segment (`Protocol` of `BitCom.ts`, as consumed
by `Sigma.decode`). -/
structure Protocol where
  protocol : String
  script : List Nat
  pos : Nat

/-- `BitComDecoded` as consumed by `Sigma.decode`. -/
structure BitComDecoded where
  protocols : List Protocol

/-- The body of one iteration of the `Sigma.decode` loop: `none` when
the segment is skipped (wrong label, parse throw, or fewer than 4
sub-fields), `some record` when it decodes. -/
def decodeOne (sdk : Sdk) (protoIdx : Nat) (protocol : Protocol) :
    Option SigmaData :=
  if protocol.protocol = SIGMA_LABEL then
    match sdk.fromBinary protocol.script with
    | none => none
    | some chunks =>
      if chunks.length < 4 then none
      else some
        { bitcomIndex := some protoIdx
          algorithm := sdk.toUTF8 ((chunks.getD 0 default).data.getD [])
          address := sdk.toUTF8 ((chunks.getD 1 default).data.getD [])
          signature := (chunks.getD 2 default).data.getD []
          vin := sdk.parseIntDec (sdk.toUTF8 ((chunks.getD 3 default).data.getD []))
          valid := none }
  else none

/-- The `Sigma.decode` loop from position `protoIdx` on. -/
def decodeAux (sdk : Sdk) (protoIdx : Nat) : List Protocol → List SigmaData
  | [] => []
  | p :: rest =>
    match decodeOne sdk protoIdx p with
    | some rec1 => rec1 :: decodeAux sdk (protoIdx + 1) rest
    | none => decodeAux sdk (protoIdx + 1) rest

/-- `Sigma.decode`: extract SIGMA signature records from a decoded
BitCom transaction, skipping malformed segments. -/
def decode (sdk : Sdk) (bitcom : BitComDecoded) : List SigmaData :=
  decodeAux sdk 0 bitcom.protocols

/-- `Sigma.sign`: create a SIGMA signature record for the message made
of the input hash and data hash. -/
def sign (sdk : Sdk) (inputHash dataHash : List Nat) (privateKey : PrivKey)
    (options : SigmaOptions) : SigmaData :=
  let algorithm := options.algorithm.getD Algorithm.BSM
  let vin := options.vin.getD 0
  let address := sdk.toAddress privateKey
  let messageHash := inputHash ++ dataHash
  let signatureArray :=
    if algorithm = Algorithm.BRC77 then
      sdk.signedMessageSign messageHash privateKey options.verifier
    else
      let sig := sdk.bsmSign messageHash privateKey
      let recoveryFactor :=
        sdk.calcRecoveryFactor sig (sdk.toPublicKey privateKey)
          (sdk.magicHash messageHash)
      sdk.b64ToList (sdk.toCompactB64 sig recoveryFactor true)
  { bitcomIndex := none
    algorithm := algorithm
    address := address
    signature := signatureArray
    vin := vin
    valid := some true }

/-- One candidate of the BSM recovery search in `verifyWithHashes`:
recover a public key for this recovery id (a throw skips the
candidate), then require `BSM.verify` and the address match. -/
def bsmCandidate (sdk : Sdk) (messageHash : List Nat) (address : String)
    (sig : Sig) (recovery : Nat) : Bool :=
  match sdk.recoverPublicKey sig recovery (sdk.magicHash messageHash) with
  | none => false
  | some publicKey =>
    sdk.bsmVerify messageHash sig publicKey &&
      (sdk.pubKeyToAddress publicKey = address)

/-- `Sigma.verifyWithHashes`: verify the record against the two hashes,
returning the updated record (the source mutates `this.data.valid` in
place) together with the boolean result. -/
def verifyWithHashes (sdk : Sdk) (data : SigmaData)
    (inputHash dataHash : List Nat) (recipientPrivateKey : Option PrivKey) :
    SigmaData × Bool :=
  let messageHash := inputHash ++ dataHash
  if data.algorithm = Algorithm.BRC77 then
    match sdk.signedMessageVerify messageHash data.signature recipientPrivateKey with
    | some b => ({ data with valid := some b }, b)
    | none => ({ data with valid := some false }, false)
  else
    match sdk.fromCompactB64 (sdk.toBase64 data.signature) with
    | none => ({ data with valid := some false }, false)
    | some sig =>
      if (List.range 4).any (fun recovery =>
          bsmCandidate sdk messageHash data.address sig recovery) then
        ({ data with valid := some true }, true)
      else ({ data with valid := some false }, false)

/-- `Sigma.unlock`: always throws. -/
def unlock (_self : SigmaData) : Except String Unit :=
  Except.error "SIGMA signatures cannot be unlocked"

end Sigma

/-! ## A concrete collaborator instance

Used to exercise the Sigma template on concrete scripts.  The script
parser is the collaborator's (`Script.fromBinary`), modelled from the
spec's script binary format. -/

/-- Modelled from the spec: the external Protocol Segment payload
parser (`Script.fromBinary` of the collaborator sdk, which is not part
of this repository), following the documented script binary format: an
opcode byte `0x00`-`0x4e` is a length-prefixed push of that many bytes
(a truncated push is a parse failure), any other opcode byte is an
operation without payload.  The fuel argument is bounded by the input
length, which shrinks at every step. -/
def parseScriptChunks : Nat → List Nat → Option (List Chunk)
  | _, [] => some []
  | 0, _ :: _ => none
  | fuel + 1, op :: rest =>
    if op ≤ 0x4e then
      if rest.length < op then none
      else
        match parseScriptChunks fuel (rest.drop op) with
        | some cs => some (⟨op, some (rest.take op)⟩ :: cs)
        | none => none
    else
      match parseScriptChunks fuel rest with
      | some cs => some (⟨op, none⟩ :: cs)
      | none => none

/-- Modelled from the spec: `Script.fromBinary` on a whole script. -/
def parseScriptSpec (l : List Nat) : Option (List Chunk) :=
  parseScriptChunks l.length l

/-- ASCII rendering of bytes; agrees with the collaborator's UTF-8
decoding on ASCII payloads. -/
def asciiToString (bs : List Nat) : String := String.mk (bs.map Char.ofNat)

/-- Decimal integer parsing: agrees with `parseInt(s, 10)` on strings
of decimal digits. -/
def parseDecD (s : String) : Int :=
  Int.ofNat (s.data.foldl (fun acc c => acc * 10 + (c.toNat - 48)) 0)

/-- A concrete collaborator instance for concrete examples: the spec's
script parser, ASCII text decoding, and trivial cryptographic
primitives (every recovery succeeds and verifies, and every key's
address is `"A"`). -/
def concreteSdk : Sdk where
  fromBinary := parseScriptSpec
  toUTF8 := asciiToString
  parseIntDec := parseDecD
  toAddress := fun _ => "A"
  toPublicKey := fun _ => ⟨0⟩
  bsmSign := fun _ _ => ⟨0⟩
  magicHash := fun _ => 0
  calcRecoveryFactor := fun _ _ _ => 0
  toCompactB64 := fun _ _ _ => ""
  b64ToList := fun _ => []
  signedMessageSign := fun _ _ _ => []
  signedMessageVerify := fun _ _ _ => some true
  toBase64 := fun _ => ""
  fromCompactB64 := fun _ => some ⟨0⟩
  recoverPublicKey := fun _ _ _ => some ⟨0⟩
  bsmVerify := fun _ _ _ => true
  pubKeyToAddress := fun _ => "A"

/-- A well-formed SIGMA segment payload: pushes of `"BSM"`, `"A"`, a
3-byte signature, and `"0"`. -/
def goodSigmaScript : List Nat := [3, 66, 83, 77, 1, 65, 3, 1, 2, 3, 1, 48]

/-- A malformed SIGMA segment payload: a single push (fewer than 4
sub-fields). -/
def badSigmaScript : List Nat := [1, 65]

/-! ## Facts about the 32-bit operations -/

theorem toUInt32_ofNat {w : Nat} (h : w < 2 ^ 32) : toUInt32 (w : Int) = w := by
  simp only [toUInt32]
  omega

theorem int32OfUInt32_of_lt {w : Nat} (h : w < 2 ^ 31) :
    int32OfUInt32 w = (w : Int) := by
  rw [int32OfUInt32, if_pos h]

theorem toUInt32_int32OfUInt32 {w : Nat} (h : w < 2 ^ 32) :
    toUInt32 (int32OfUInt32 w) = w := by
  simp only [int32OfUInt32, toUInt32]
  split <;> omega

theorem jsToInt32_ofNat {w : Nat} (h : w < 2 ^ 32) :
    jsToInt32 (w : Int) = int32OfUInt32 w := by
  rw [jsToInt32, toUInt32_ofNat h]

/-- Bitwise or of a value below `2 ^ k` with a multiple of `2 ^ k` is
their sum (the bit ranges are disjoint). -/
theorem lor_add_of_lt {u k : Nat} (h : u < 2 ^ k) (m : Nat) :
    u ||| 2 ^ k * m = u + 2 ^ k * m := by
  rw [Nat.lor_comm, ← Nat.mul_add_lt_is_or h m, Nat.add_comm]

/-- A byte below `128` has a clear high bit. -/
theorem byte_and_128_of_lt {a : Nat} (h : a < 128) : a &&& 128 = 0 := by
  have h7 : a.testBit 7 = false := Nat.testBit_lt_two_pow (by norm_num; omega)
  have := Nat.and_two_pow a 7
  norm_num [h7] at this
  exact this

/-- A byte in `[128, 256)` has its high bit set. -/
theorem byte_and_128_of_ge {a : Nat} (h1 : 128 ≤ a) (h2 : a < 256) :
    a &&& 128 = 128 := by
  have h7 : a.testBit 7 = true := by
    rw [Nat.testBit_to_div_mod]
    have ha : a / 2 ^ 7 = 1 := by omega
    norm_num at ha ⊢
    omega
  have := Nat.and_two_pow a 7
  norm_num [h7] at this
  exact this

/-- Bits of `w` above the width of `v` do not matter in `v &&& w`. -/
theorem and_mod_of_lt {v m : Nat} (h : v < 2 ^ m) (w : Nat) :
    v &&& w = v &&& (w % 2 ^ m) := by
  apply Nat.eq_of_testBit_eq
  intro j
  rcases lt_or_ge j m with hj | hj
  · simp [Nat.testBit_mod_two_pow, hj]
  · have hv : v.testBit j = false :=
      Nat.testBit_lt_two_pow (lt_of_lt_of_le h (Nat.pow_le_pow_right (by norm_num) hj))
    simp [hv]

/-- `jsShl` of a byte value by a byte-aligned in-range distance. -/
theorem jsShl_byte {b : Nat} (hb : b < 256) {i : Nat} (hi : i ≤ 3) :
    jsShl (b : Int) (8 * i) = int32OfUInt32 (b * 2 ^ (8 * i)) := by
  have h32 : (8 * i) % 32 = 8 * i := Nat.mod_eq_of_lt (by omega)
  have hlt : b * 2 ^ (8 * i) < 2 ^ 32 := by
    have hp : 2 ^ (8 * i) ≤ 2 ^ 24 := Nat.pow_le_pow_right (by norm_num) (by omega)
    have hb2 : b * 2 ^ (8 * i) ≤ 255 * 2 ^ 24 :=
      Nat.mul_le_mul (by omega) hp
    omega
  rw [jsShl, toUInt32_ofNat (by omega), h32, Nat.shiftLeft_eq,
    Nat.mod_eq_of_lt hlt]

/-! ## Facts about little-endian digit strings -/

theorem natToLE_zero : natToLE 0 = [] := by
  rw [natToLE]
  norm_num

theorem natToLE_pos {m : Nat} (h : m ≠ 0) :
    natToLE m = m % 256 :: natToLE (m / 256) := by
  rw [natToLE, if_neg h]

theorem natToLE_digits_lt {m : Nat} : ∀ b ∈ natToLE m, b < 256 := by
  induction m using Nat.strong_induction_on with
  | _ m ih =>
    by_cases h : m = 0
    · subst h; rw [natToLE_zero]; simp
    · rw [natToLE_pos h]
      intro b hb
      rcases List.mem_cons.mp hb with hb | hb
      · subst hb; exact Nat.mod_lt _ (by norm_num)
      · exact ih (m / 256) (Nat.div_lt_self (by omega) (by norm_num)) b hb

theorem leValue_nil : leValue [] = 0 := rfl

theorem leValue_cons (b : Nat) (bs : List Nat) :
    leValue (b :: bs) = b + 256 * leValue bs := rfl

theorem leValue_natToLE (m : Nat) : leValue (natToLE m) = m := by
  induction m using Nat.strong_induction_on with
  | _ m ih =>
    by_cases h : m = 0
    · subst h; rw [natToLE_zero, leValue_nil]
    · rw [natToLE_pos h, leValue_cons,
        ih (m / 256) (Nat.div_lt_self (by omega) (by norm_num))]
      omega

theorem natToLE_ne_nil {m : Nat} (h : m ≠ 0) : natToLE m ≠ [] := by
  rw [natToLE_pos h]
  simp

theorem leValue_lt {bs : List Nat} (h : ∀ b ∈ bs, b < 256) :
    leValue bs < 256 ^ bs.length := by
  induction bs with
  | nil => simp [leValue_nil]
  | cons b rest ih =>
    rw [leValue_cons]
    have hb : b < 256 := h b (by simp)
    have hr : leValue rest < 256 ^ rest.length := ih (fun x hx => h x (by simp [hx]))
    have : 256 * leValue rest ≤ 256 * (256 ^ rest.length - 1) := by omega
    simp only [List.length_cons, pow_succ]
    have h2 : 0 < 256 ^ rest.length := Nat.pos_pow_of_pos _ (by norm_num)
    nlinarith

theorem leValue_concat (bs : List Nat) (b : Nat) :
    leValue (bs ++ [b]) = leValue bs + b * 256 ^ bs.length := by
  induction bs with
  | nil => simp [leValue_nil, leValue_cons]
  | cons x rest ih =>
    simp only [List.cons_append, leValue_cons, ih, List.length_cons, pow_succ]
    ring

theorem natToLE_length {m L : Nat} (h : m < 256 ^ L) : (natToLE m).length ≤ L := by
  induction m using Nat.strong_induction_on generalizing L with
  | _ m ih =>
    by_cases h0 : m = 0
    · subst h0; rw [natToLE_zero]; simp
    · have hL : L ≠ 0 := by
        rintro rfl
        simp at h
        omega
      rw [natToLE_pos h0]
      simp only [List.length_cons]
      have hdiv : m / 256 < 256 ^ (L - 1) := by
        have : m < 256 ^ (L - 1) * 256 := by
          have : 256 ^ (L - 1) * 256 = 256 ^ L := by
            rw [← pow_succ]
            congr 1
            omega
          omega
        omega
      have := ih (m / 256) (Nat.div_lt_self (by omega) (by norm_num)) hdiv
      omega

theorem getLastD_irrel {α : Type} {l : List α} (h : l ≠ []) (d1 d2 : α) :
    l.getLastD d1 = l.getLastD d2 := by
  cases l with
  | nil => exact absurd rfl h
  | cons y ys => simp [List.getLastD_eq_getLast?, List.getLast?_eq_getLast _ h]

/-- The last digit of `natToLE m` is the leading base-256 digit
`m / 256 ^ (len - 1)`. -/
theorem natToLE_getLastD (m : Nat) (h : m ≠ 0) :
    (natToLE m).getLastD 0 = m / 256 ^ ((natToLE m).length - 1) := by
  induction m using Nat.strong_induction_on with
  | _ m ih =>
    by_cases hs : m / 256 = 0
    · rw [natToLE_pos h, hs, natToLE_zero]
      simp only [List.getLastD_cons, List.getLastD_nil, List.length_singleton]
      norm_num
      omega
    · rw [natToLE_pos h, List.getLastD_cons]
      have hrec := ih (m / 256) (Nat.div_lt_self (by omega) (by norm_num)) hs
      have hne := natToLE_ne_nil hs
      rw [getLastD_irrel hne _ 0, hrec]
      have hlen : (natToLE (m / 256)).length ≠ 0 := by
        cases hl : natToLE (m / 256) with
        | nil => exact absurd hl hne
        | cons y ys => simp
      simp only [List.length_cons]
      rw [Nat.div_div_eq_div_mul]
      congr 1
      rw [Nat.add_sub_cancel, ← pow_succ']
      congr 1
      omega

/-! ## The decode accumulation loop computes the little-endian value -/

theorem accumLoop_eq (bytes : List Nat) : ∀ (i u : Nat),
    (∀ b ∈ bytes, b < 256) → u < 2 ^ (8 * i) → 8 * (i + bytes.length) ≤ 32 →
    Lock.accumLoop (int32OfUInt32 u) i bytes =
      int32OfUInt32 (u + leValue bytes * 2 ^ (8 * i)) := by
  induction bytes with
  | nil =>
    intro i u _ _ _
    simp [Lock.accumLoop, leValue_nil]
  | cons b rest ih =>
    intro i u hb hu hw
    have hb256 : b < 256 := hb b (by simp)
    have hi3 : i ≤ 3 := by simp at hw; omega
    have hpow : (2 : Nat) ^ (8 * i) ≤ 2 ^ 24 := Nat.pow_le_pow_right (by norm_num) (by omega)
    have hu32 : u < 2 ^ 32 := by omega
    have hbs32 : b * 2 ^ (8 * i) < 2 ^ 32 := by
      have : b * 2 ^ (8 * i) ≤ 255 * 2 ^ 24 := Nat.mul_le_mul (by omega) hpow
      omega
    have hstep : jsOr (int32OfUInt32 u) (jsShl (b : Int) (8 * i)) =
        int32OfUInt32 (u + 2 ^ (8 * i) * b) := by
      rw [jsShl_byte hb256 hi3, jsOr, toUInt32_int32OfUInt32 hu32,
        toUInt32_int32OfUInt32 hbs32, Nat.mul_comm b, lor_add_of_lt hu b]
    have h3 : (2 : Nat) ^ (8 * (i + 1)) = 2 ^ (8 * i) * 256 := by
      rw [show 8 * (i + 1) = 8 * i + 8 by ring, pow_add]
      norm_num
    have hu2 : u + 2 ^ (8 * i) * b < 2 ^ (8 * (i + 1)) := by
      have hx : 2 ^ (8 * i) * (b + 1) = 2 ^ (8 * i) * b + 2 ^ (8 * i) := by ring
      have h2 : 2 ^ (8 * i) * (b + 1) ≤ 2 ^ (8 * i) * 256 :=
        Nat.mul_le_mul_left _ (by omega)
      omega
    rw [Lock.accumLoop, hstep,
      ih (i + 1) _ (fun x hx => hb x (by simp [hx])) hu2 (by simp at hw ⊢; omega)]
    congr 1
    rw [leValue_cons, h3]
    ring

theorem accumLoop_leValue (bytes : List Nat)
    (hb : ∀ b ∈ bytes, b < 256) (hlen : bytes.length ≤ 4) :
    Lock.accumLoop 0 0 bytes = int32OfUInt32 (leValue bytes) := by
  have h0 : (0 : Int) = int32OfUInt32 0 := by norm_num [int32OfUInt32]
  rw [h0, accumLoop_eq bytes 0 0 hb (by norm_num) (by omega)]
  norm_num

set_option maxRecDepth 2000

/-- The masking step of `decodeBlockHeight`'s negative branch:
`result &= ~(0x80 << (8 * (n - 1)))` clears the top bit. -/
theorem jsAnd_mask {n v : Nat} (hn1 : 1 ≤ n) (hn4 : n ≤ 4)
    (hv : v < 2 ^ (8 * n)) (hvt : 2 ^ (8 * n - 1) ≤ v) :
    jsAnd (int32OfUInt32 v) (jsNot (jsShl 128 (8 * (n - 1)))) =
      ((v - 2 ^ (8 * n - 1) : Nat) : Int) := by
  interval_cases n
  · norm_num at hv hvt ⊢
    have hmask : jsNot (jsShl 128 (8 * (1 - 1))) = -129 := by decide
    rw [hmask, jsAnd, toUInt32_int32OfUInt32 (by omega)]
    have ht : toUInt32 (-129) = 4294967167 := by decide
    rw [ht, and_mod_of_lt (show v < 2 ^ 8 by omega) 4294967167]
    norm_num
    have h127 : v &&& 127 = v % 2 ^ 7 := by
      have := Nat.and_pow_two_sub_one_eq_mod v 7
      norm_num at this
      exact this
    have hveq : v % 2 ^ 7 = v - 128 := by omega
    rw [h127, hveq, int32OfUInt32_of_lt (by norm_num; omega)]
  · norm_num at hv hvt ⊢
    have hmask : jsNot (jsShl 128 (8 * (2 - 1))) = -32769 := by decide
    rw [hmask, jsAnd, toUInt32_int32OfUInt32 (by omega)]
    have ht : toUInt32 (-32769) = 4294934527 := by decide
    rw [ht, and_mod_of_lt (show v < 2 ^ 16 by omega) 4294934527]
    norm_num
    have h15 : v &&& 32767 = v % 2 ^ 15 := by
      have := Nat.and_pow_two_sub_one_eq_mod v 15
      norm_num at this
      exact this
    have hveq : v % 2 ^ 15 = v - 32768 := by omega
    rw [h15, hveq, int32OfUInt32_of_lt (by norm_num; omega)]
  · norm_num at hv hvt ⊢
    have hmask : jsNot (jsShl 128 (8 * (3 - 1))) = -8388609 := by decide
    rw [hmask, jsAnd, toUInt32_int32OfUInt32 (by omega)]
    have ht : toUInt32 (-8388609) = 4286578687 := by decide
    rw [ht, and_mod_of_lt (show v < 2 ^ 24 by omega) 4286578687]
    norm_num
    have h23 : v &&& 8388607 = v % 2 ^ 23 := by
      have := Nat.and_pow_two_sub_one_eq_mod v 23
      norm_num at this
      exact this
    have hveq : v % 2 ^ 23 = v - 8388608 := by omega
    rw [h23, hveq, int32OfUInt32_of_lt (by norm_num; omega)]
  · norm_num at hv hvt ⊢
    have hmask : jsNot (jsShl 128 (8 * (4 - 1))) = 2147483647 := by decide
    rw [hmask, jsAnd, toUInt32_int32OfUInt32 (by omega)]
    have ht : toUInt32 2147483647 = 2147483647 := by decide
    rw [ht]
    have h31 : v &&& 2147483647 = v % 2 ^ 31 := by
      have := Nat.and_pow_two_sub_one_eq_mod v 31
      norm_num at this
      exact this
    have hveq : v % 2 ^ 31 = v - 2147483648 := by omega
    rw [h31, hveq, int32OfUInt32_of_lt (by norm_num; omega)]

/-- `decodeBlockHeight` on a serialized data push (`length` opcode then
payload): little-endian accumulation, then sign handling when the top
byte has its high bit set. -/
theorem decodeBlockHeight_push (payload : List Nat)
    (hb : ∀ b ∈ payload, b < 256) (h1 : 1 ≤ payload.length)
    (h4 : payload.length ≤ 4) :
    Lock.decodeBlockHeight (payload.length :: payload) =
      if 128 ≤ payload.getLastD 0 then
        -(((leValue payload - 2 ^ (8 * payload.length - 1) : Nat)) : Int)
      else (leValue payload : Int) := by
  have hne : payload ≠ [] := by
    cases payload
    · simp at h1
    · simp
  have heq : payload.getLastD 0 = payload.getLast hne := by
    rw [List.getLastD_eq_getLast?, List.getLast?_eq_getLast payload hne]
    rfl
  have htop256 : payload.getLastD 0 < 256 := hb _ (heq ▸ List.getLast_mem hne)
  have hdecomp : payload.dropLast ++ [payload.getLastD 0] = payload := by
    rw [heq]
    exact List.dropLast_concat_getLast hne
  have hval : leValue payload =
      leValue payload.dropLast +
        payload.getLastD 0 * 256 ^ (payload.length - 1) := by
    conv_lhs => rw [← hdecomp]
    rw [leValue_concat, List.length_dropLast]
  have hinitlt : leValue payload.dropLast < 256 ^ (payload.length - 1) := by
    have := leValue_lt (fun b hb2 => hb b (List.dropLast_subset payload hb2))
    rwa [List.length_dropLast] at this
  have hvlt : leValue payload < 256 ^ payload.length := leValue_lt hb
  have hpow : (256 : Nat) ^ payload.length = 2 ^ (8 * payload.length) := by
    rw [show (256 : Nat) = 2 ^ 8 by norm_num, ← pow_mul]
  have hpow1 : (128 : Nat) * 256 ^ (payload.length - 1) =
      2 ^ (8 * payload.length - 1) := by
    rw [show (256 : Nat) = 2 ^ 8 by norm_num, ← pow_mul,
      show (128 : Nat) = 2 ^ 7 by norm_num, ← pow_add]
    congr 1
    omega
  have hle31 : (2 : Nat) ^ (8 * payload.length - 1) ≤ 2 ^ 31 :=
    Nat.pow_le_pow_right (by norm_num) (by omega)
  -- reduce the decoder to its data-push branch
  rw [Lock.decodeBlockHeight]
  rw [if_neg (by simp)]
  simp only [List.headD_cons, List.drop_succ_cons, List.drop_zero,
    List.take_length]
  rw [if_neg (by omega), if_neg (by omega), if_neg (by omega),
    if_neg (by omega)]
  rcases lt_or_ge (payload.getLastD 0) 128 with htop | htop
  · -- positive-looking top byte: plain value
    have hand := byte_and_128_of_lt htop
    have hand2 : payload.getLast?.getD 0 &&& 128 = 0 := by
      rw [← List.getLastD_eq_getLast?]
      exact hand
    rw [if_neg (by simp [hand2]), if_neg (by omega),
      accumLoop_leValue payload hb h4]
    have hv31 : leValue payload < 2 ^ 31 := by
      have hta : payload.getLastD 0 * 256 ^ (payload.length - 1) ≤
          127 * 256 ^ (payload.length - 1) :=
        Nat.mul_le_mul_right _ (by omega)
      have h127 : (127 : Nat) * 256 ^ (payload.length - 1) +
          256 ^ (payload.length - 1) = 128 * 256 ^ (payload.length - 1) := by
        ring
      omega
    rw [int32OfUInt32_of_lt hv31]
  · -- high bit set: masked and negated
    have hand := byte_and_128_of_ge htop htop256
    have hvge : 2 ^ (8 * payload.length - 1) ≤ leValue payload := by
      have hta : 128 * 256 ^ (payload.length - 1) ≤
          payload.getLastD 0 * 256 ^ (payload.length - 1) :=
        Nat.mul_le_mul_right _ htop
      omega
    have hand2 : payload.getLast?.getD 0 &&& 128 = 128 := by
      rw [← List.getLastD_eq_getLast?]
      exact hand
    rw [if_pos (by simp [hand2]), if_pos (by omega),
      accumLoop_leValue payload hb h4,
      jsAnd_mask h1 h4 (by omega) hvge]

/-! ## The encoder byte loop computes little-endian digits -/

theorem natToLE_lt_pow (m : Nat) : m < 256 ^ (natToLE m).length := by
  induction m using Nat.strong_induction_on with
  | _ m ih =>
    by_cases h0 : m = 0
    · subst h0
      rw [natToLE_zero]
      norm_num
    · rw [natToLE_pos h0]
      simp only [List.length_cons, pow_succ]
      have := ih (m / 256) (Nat.div_lt_self (by omega) (by norm_num))
      have h2 : m / 256 + 1 ≤ 256 ^ (natToLE (m / 256)).length := this
      have h3 : (m / 256 + 1) * 256 ≤ 256 ^ (natToLE (m / 256)).length * 256 :=
        Nat.mul_le_mul_right _ h2
      omega

theorem natToLE_getLastD_pos {m : Nat} (h0 : m ≠ 0) :
    1 ≤ (natToLE m).getLastD 0 := by
  induction m using Nat.strong_induction_on with
  | _ m ih =>
    by_cases hs : m / 256 = 0
    · rw [natToLE_pos h0, hs, natToLE_zero]
      simp only [List.getLastD_cons, List.getLastD_nil]
      omega
    · rw [natToLE_pos h0, List.getLastD_cons,
        getLastD_irrel (natToLE_ne_nil hs) _ 0]
      exact ih (m / 256) (Nat.div_lt_self (by omega) (by norm_num)) hs

theorem natToLE_getLastD_lt {m : Nat} (h0 : m ≠ 0) :
    (natToLE m).getLastD 0 < 256 := by
  have hne := natToLE_ne_nil h0
  have heq : (natToLE m).getLastD 0 = (natToLE m).getLast hne := by
    rw [List.getLastD_eq_getLast?, List.getLast?_eq_getLast _ hne]
    rfl
  rw [heq]
  exact natToLE_digits_lt _ (List.getLast_mem hne)

theorem natToLE_pow_le {m : Nat} (h0 : m ≠ 0) :
    256 ^ ((natToLE m).length - 1) ≤ m := by
  have htop1 := natToLE_getLastD_pos h0
  rw [natToLE_getLastD m h0] at htop1
  exact (Nat.one_le_div_iff (Nat.pos_pow_of_pos _ (by norm_num))).mp htop1

/-- Within `[0, 2^31)` the JS byte loop is exactly the little-endian
digit string. -/
theorem leLoop_eq_natToLE (m : Nat) (hm : m < 2 ^ 31) :
    Lock.leLoop (m : Int) = natToLE m := by
  induction m using Nat.strong_induction_on with
  | _ m ih =>
    by_cases h0 : m = 0
    · subst h0
      rw [Lock.leLoop, natToLE_zero]
      norm_num
    · rw [Lock.leLoop, dif_pos (by exact_mod_cast Nat.pos_of_ne_zero h0),
        natToLE_pos h0]
      have hu : toUInt32 (m : Int) = m := toUInt32_ofNat (by omega)
      have hbyte : toUInt32 (m : Int) &&& 0xff = m % 256 := by
        rw [hu]
        have := Nat.and_pow_two_sub_one_eq_mod m 8
        norm_num at this
        exact this
      have hshr : jsShr (m : Int) 8 = ((m / 256 : Nat) : Int) := by
        rw [jsShr, jsToInt32, hu, int32OfUInt32_of_lt (by omega)]
        norm_num
      rw [hbyte, hshr,
        ih (m / 256) (Nat.div_lt_self (by omega) (by norm_num)) (by omega)]

/-- Within `[-(2^31 - 1), 2^31 - 1]` the code's encoder agrees with the
spec's rules (with the `0x00` zero-push opcode). -/
theorem encode_eq_numEncodeSpec (h : Int) (hlo : -(2 ^ 31 - 1) ≤ h)
    (hhi : h ≤ 2 ^ 31 - 1) :
    Lock.encodeBlockHeight h = numEncodeSpec h := by
  rw [Lock.encodeBlockHeight, numEncodeSpec]
  rcases eq_or_ne h 0 with h0 | h0
  · rw [if_pos h0, if_pos h0]
  rw [if_neg h0, if_neg h0]
  by_cases h16 : 1 ≤ h ∧ h ≤ 16
  · rw [if_pos h16, if_pos h16]
  rw [if_neg h16, if_neg h16]
  rcases eq_or_ne h (-1) with hm1 | hm1
  · rw [if_pos hm1, if_pos hm1]
  rw [if_neg hm1, if_neg hm1]
  have hm0 : h.natAbs ≠ 0 := by omega
  have hmlt : h.natAbs < 2 ^ 31 := by omega
  have habs : (if h < 0 then -h else h) = ((h.natAbs : Nat) : Int) := by
    split <;> omega
  have htop256 := natToLE_getLastD_lt hm0
  have hcond : ((natToLE h.natAbs).getLastD 0 &&& 128 ≠ 0) ↔
      (128 ≤ (natToLE h.natAbs).getLastD 0) := by
    constructor
    · intro hne
      by_contra hlt
      push_neg at hlt
      exact hne (byte_and_128_of_lt hlt)
    · intro hge
      rw [byte_and_128_of_ge hge htop256]
      norm_num
  simp only [habs, leLoop_eq_natToLE h.natAbs hmlt]
  simp only [List.getLastD_eq_getLast?] at htop256
  by_cases htop : 128 ≤ (natToLE h.natAbs).getLast?.getD 0
  · have hand : (natToLE h.natAbs).getLast?.getD 0 &&& 128 = 128 :=
      byte_and_128_of_ge htop htop256
    by_cases hneg : h < 0 <;>
      simp [hand, htop, hneg, List.dropLast_concat, List.getLast?_concat]
  · have hlt : (natToLE h.natAbs).getLast?.getD 0 < 128 := by omega
    have hand := byte_and_128_of_lt hlt
    by_cases hneg : h < 0 <;> simp [hand, htop, hneg]

theorem leValue_decomp (l : List Nat) (hne : l ≠ []) :
    leValue l = leValue l.dropLast + l.getLastD 0 * 256 ^ (l.length - 1) := by
  have heq : l.getLastD 0 = l.getLast hne := by
    rw [List.getLastD_eq_getLast?, List.getLast?_eq_getLast _ hne]
    rfl
  conv_lhs => rw [← List.dropLast_concat_getLast hne]
  rw [leValue_concat, List.length_dropLast, heq]

theorem pow128 (k : Nat) : (128 : Nat) * 256 ^ k = 2 ^ (8 * (k + 1) - 1) := by
  rw [show (128 : Nat) = 2 ^ 7 by norm_num,
    show (256 : Nat) = 2 ^ 8 by norm_num, ← pow_mul, ← pow_add]
  congr 1
  omega

/-- Round trip of the block-height codec over the serialized chunk
bytes, for every height the spec requires. -/
theorem decode_encode_core (h : Int) (hlo : -(2 ^ 31 - 1) ≤ h)
    (hhi : h ≤ 2 ^ 31 - 1) :
    Lock.decodeBlockHeight (chunksBytes (Lock.encodeBlockHeight h)) = h := by
  have hcb : ∀ (p : List Nat), chunksBytes [⟨p.length, some p⟩] = p.length :: p := by
    intro p
    simp [chunksBytes, chunkBytes]
  rw [encode_eq_numEncodeSpec h hlo hhi, numEncodeSpec]
  rcases eq_or_ne h 0 with rfl | h0
  · decide
  rw [if_neg h0]
  by_cases h16 : 1 ≤ h ∧ h ≤ 16
  · rw [if_pos h16]
    have hop : (0x50 + h).toNat = 80 + h.toNat := by omega
    simp only [chunksBytes, chunkBytes, List.map_cons, List.map_nil,
      List.flatten_cons, List.flatten_nil, List.append_nil, Option.getD_none,
      hop]
    rw [Lock.decodeBlockHeight, if_neg (by simp)]
    simp only [List.headD_cons]
    rw [if_neg (by omega), if_pos (by constructor <;> omega)]
    omega
  rw [if_neg h16]
  rcases eq_or_ne h (-1) with rfl | hm1
  · decide
  rw [if_neg hm1]
  -- data-push case
  have hm0 : h.natAbs ≠ 0 := by omega
  have hmlt4 : h.natAbs < 256 ^ 4 := by norm_num; omega
  have hne := natToLE_ne_nil hm0
  have hL1 : 1 ≤ (natToLE h.natAbs).length := by
    cases hl : natToLE h.natAbs with
    | nil => exact absurd hl hne
    | cons y ys => simp
  have hL4 : (natToLE h.natAbs).length ≤ 4 := natToLE_length hmlt4
  have hdig := natToLE_digits_lt (m := h.natAbs)
  have hval := leValue_natToLE h.natAbs
  have htoplt := natToLE_getLastD_lt hm0
  have htopdiv := natToLE_getLastD h.natAbs hm0
  by_cases htop : 0x80 ≤ (natToLE h.natAbs).getLastD 0
  · -- the magnitude's top byte has its high bit set: the 0x00 extension
    have hmge : 128 * 256 ^ ((natToLE h.natAbs).length - 1) ≤ h.natAbs := by
      rw [htopdiv] at htop
      exact (Nat.le_div_iff_mul_le (Nat.pos_pow_of_pos _ (by norm_num))).mp htop
    have hL3 : (natToLE h.natAbs).length ≤ 3 := by
      by_contra hc
      have h4 : (natToLE h.natAbs).length = 4 := by omega
      rw [h4] at hmge
      norm_num at hmge
      omega
    have hplen : (2 : Nat) ^ (8 * ((natToLE h.natAbs).length + 1) - 1) =
        128 * 256 ^ (natToLE h.natAbs).length := (pow128 _).symm
    by_cases hneg : h < 0
    · -- negative: append 0x80
      simp only [if_pos htop, if_pos hneg, List.dropLast_concat,
        List.getLastD_concat, Nat.zero_or]
      rw [hcb, decodeBlockHeight_push _ (by
          intro b hb
          rcases List.mem_append.mp hb with hb | hb
          · exact hdig b hb
          · simp at hb
            omega)
        (by simp) (by simp; omega)]
      rw [List.getLastD_concat, if_pos (by norm_num)]
      rw [leValue_concat, hval]
      simp only [List.length_append, List.length_singleton]
      have hsub : h.natAbs + 128 * 256 ^ (natToLE h.natAbs).length -
          2 ^ (8 * ((natToLE h.natAbs).length + 1) - 1) = h.natAbs := by
        omega
      rw [hsub]
      omega
    · -- positive: append 0x00
      simp only [if_pos htop, if_neg hneg]
      rw [hcb, decodeBlockHeight_push _ (by
          intro b hb
          rcases List.mem_append.mp hb with hb | hb
          · exact hdig b hb
          · simp at hb
            omega)
        (by simp) (by simp; omega)]
      rw [List.getLastD_concat, if_neg (by norm_num)]
      rw [leValue_concat, hval]
      simp only [Nat.zero_mul, Nat.add_zero]
      omega
  · -- top byte below 0x80: no extension
    have htoplt128 : (natToLE h.natAbs).getLastD 0 < 128 := by omega
    have hmlt31 : h.natAbs < 128 * 256 ^ ((natToLE h.natAbs).length - 1) := by
      rw [htopdiv] at htoplt128
      exact (Nat.div_lt_iff_lt_mul (Nat.pos_pow_of_pos _ (by norm_num))).mp
        htoplt128
    have hplen : (2 : Nat) ^ (8 * (natToLE h.natAbs).length - 1) =
        128 * 256 ^ ((natToLE h.natAbs).length - 1) := by
      rw [pow128 ((natToLE h.natAbs).length - 1)]
      congr 1
      omega
    by_cases hneg : h < 0
    · -- negative: set the top bit of the final byte
      have hlor : (natToLE h.natAbs).getLastD 0 ||| 128 =
          (natToLE h.natAbs).getLastD 0 + 128 := by
        have h2 := lor_add_of_lt (show (natToLE h.natAbs).getLastD 0 < 2 ^ 7 by
          omega) 1
        have h128 : (2 : Nat) ^ 7 * 1 = 128 := by norm_num
        rw [h128] at h2
        exact h2
      simp only [if_neg htop, if_pos hneg, hlor]
      rw [hcb, decodeBlockHeight_push _ (by
          intro b hb
          rcases List.mem_append.mp hb with hb | hb
          · exact hdig b (List.dropLast_subset _ hb)
          · rw [List.mem_singleton] at hb
            omega)
        (by simp only [List.length_append, List.length_dropLast,
              List.length_singleton]
            omega)
        (by simp only [List.length_append, List.length_dropLast,
              List.length_singleton]
            omega)]
      rw [List.getLastD_concat, if_pos (by omega)]
      rw [leValue_concat, List.length_dropLast]
      have hdec := leValue_decomp (natToLE h.natAbs) hne
      rw [hval] at hdec
      simp only [List.length_append, List.length_dropLast,
        List.length_singleton]
      have hlen1 : (natToLE h.natAbs).length - 1 + 1 =
          (natToLE h.natAbs).length := by omega
      rw [hlen1, hplen]
      have hmul : ((natToLE h.natAbs).getLastD 0 + 128) *
          256 ^ ((natToLE h.natAbs).length - 1) =
          (natToLE h.natAbs).getLastD 0 * 256 ^ ((natToLE h.natAbs).length - 1)
            + 128 * 256 ^ ((natToLE h.natAbs).length - 1) := by
        ring
      rw [hmul]
      have hsub : leValue (natToLE h.natAbs).dropLast +
          ((natToLE h.natAbs).getLastD 0 * 256 ^ ((natToLE h.natAbs).length - 1)
            + 128 * 256 ^ ((natToLE h.natAbs).length - 1)) -
          128 * 256 ^ ((natToLE h.natAbs).length - 1) = h.natAbs := by
        omega
      rw [hsub]
      omega
    · -- positive: digits verbatim
      simp only [if_neg htop, if_neg hneg]
      rw [hcb, decodeBlockHeight_push _ hdig (by omega) hL4]
      rw [if_neg (by omega), hval]
      omega

/-! ## Lock script composition -/

theorem isLock_lock (f : String → List Nat) (addr : String) (h : Int) :
    Lock.isLock (Lock.lock f addr h) = true := by
  rw [Lock.isLock, Lock.lock]
  simp only [Bool.and_eq_true, List.isPrefixOf_iff_prefix,
    List.isSuffixOf_iff_suffix]
  constructor
  · rw [List.append_assoc, List.append_assoc]
    exact List.prefix_append _ _
  · exact List.suffix_append _ _

theorem decode_lock (f : String → List Nat) (addr : String) (h : Int)
    (hpkh : (f addr).length = 20) :
    Lock.decode (Lock.lock f addr h) =
      Except.ok ⟨f addr,
        Lock.decodeBlockHeight (chunksBytes (Lock.encodeBlockHeight h))⟩ := by
  rw [Lock.decode, if_pos (isLock_lock f addr h)]
  dsimp only
  have hsplit1 : Lock.lock f addr h =
      (Lock.LOCK_PREFIX_BYTES ++ [20]) ++
        (f addr ++ (chunksBytes (Lock.encodeBlockHeight h) ++
          Lock.LOCK_SUFFIX_BYTES)) := by
    simp [Lock.lock, List.append_assoc]
  have hsplit2 : Lock.lock f addr h =
      ((Lock.LOCK_PREFIX_BYTES ++ [20]) ++ f addr) ++
        (chunksBytes (Lock.encodeBlockHeight h) ++ Lock.LOCK_SUFFIX_BYTES) := by
    simp [Lock.lock, List.append_assoc]
  have hlen1 : (Lock.LOCK_PREFIX_BYTES ++ [20]).length =
      Lock.LOCK_PREFIX_BYTES.length + 1 := by
    simp
  have hlen2 : ((Lock.LOCK_PREFIX_BYTES ++ [20]) ++ f addr).length =
      Lock.LOCK_PREFIX_BYTES.length + 1 + 20 := by
    simp [hpkh]
  have hpkh2 : (Lock.lock f addr h).drop (Lock.LOCK_PREFIX_BYTES.length + 1) =
      f addr ++ (chunksBytes (Lock.encodeBlockHeight h) ++
        Lock.LOCK_SUFFIX_BYTES) := by
    rw [hsplit1, List.drop_left' hlen1]
  have htot : (Lock.lock f addr h).length =
      Lock.LOCK_PREFIX_BYTES.length + 1 + 20 +
        (chunksBytes (Lock.encodeBlockHeight h)).length +
        Lock.LOCK_SUFFIX_BYTES.length := by
    simp [Lock.lock, hpkh]
    omega
  have huntil : (Lock.lock f addr h).drop
      (Lock.LOCK_PREFIX_BYTES.length + 1 + 20) =
      chunksBytes (Lock.encodeBlockHeight h) ++ Lock.LOCK_SUFFIX_BYTES := by
    rw [hsplit2, List.drop_left' hlen2]
  rw [hpkh2, huntil, List.take_left' hpkh, htot]
  congr 2
  rw [Nat.add_sub_cancel]
  have : Lock.LOCK_PREFIX_BYTES.length + 1 + 20 +
      (chunksBytes (Lock.encodeBlockHeight h)).length -
      (Lock.LOCK_PREFIX_BYTES.length + 1 + 20) =
      (chunksBytes (Lock.encodeBlockHeight h)).length := by
    omega
  rw [this, List.take_left]

/-- Claim C2: the block-height codec round-trips every integer in
`[-(2^31 - 1), 2^31 - 1]`, and for every height in the spec's test list
and every address whose base58check payload is 20 bytes, `lock` then
`decode` recovers the height (and `isLock` holds). -/
theorem lock_roundtrip :
    (∀ h : Int, -(2 ^ 31 - 1) ≤ h → h ≤ 2 ^ 31 - 1 →
      Lock.decodeBlockHeight (chunksBytes (Lock.encodeBlockHeight h)) = h) ∧
    (∀ (f : String → List Nat) (addr : String) (h : Int),
      h ∈ testHeights → (f addr).length = 20 →
      Lock.isLock (Lock.lock f addr h) = true ∧
      Lock.decode (Lock.lock f addr h) = Except.ok ⟨f addr, h⟩) := by
  constructor
  · exact decode_encode_core
  · intro f addr h hmem hlen
    have hrange : -(2 ^ 31 - 1) ≤ h ∧ h ≤ 2 ^ 31 - 1 := by
      fin_cases hmem <;> norm_num
    refine ⟨isLock_lock f addr h, ?_⟩
    rw [decode_lock f addr h hlen, decode_encode_core h hrange.1 hrange.2]

theorem lock_roundtrip_witness :
    ((-(2 ^ 31 - 1) : Int) ≤ 800000 ∧ (800000 : Int) ≤ 2 ^ 31 - 1 ∧
      (800000 : Int) ∈ testHeights ∧
      ((fun (_ : String) => List.replicate 20 0) "addr").length = 20) ∧
    Lock.decodeBlockHeight (chunksBytes (Lock.encodeBlockHeight 800000)) =
      800000 ∧
    Lock.isLock (Lock.lock (fun _ => List.replicate 20 0) "addr" 800000) =
      true :=
  ⟨⟨by norm_num, by norm_num, by decide, by decide⟩,
   lock_roundtrip.1 800000 (by norm_num) (by norm_num),
   (lock_roundtrip.2 (fun _ => List.replicate 20 0) "addr" 800000 (by decide)
     (by decide)).1⟩

/-! ## Number-encoder rules (C3) -/

theorem leLoop_two_pow_31 : Lock.leLoop (2 ^ 31) = [0] := by
  rw [Lock.leLoop, dif_pos (by norm_num)]
  have h1 : toUInt32 (2 ^ 31) &&& 0xff = 0 := by decide
  have h2 : jsShr (2 ^ 31) 8 = -8388608 := by decide
  rw [h1, h2, Lock.leLoop, dif_neg (by norm_num)]

theorem natToLE_two_pow_31 : natToLE 2147483648 = [0, 0, 0, 128] := by
  rw [natToLE_pos (show (2147483648 : Nat) ≠ 0 by norm_num)]
  norm_num
  rw [natToLE_pos (show (8388608 : Nat) ≠ 0 by norm_num)]
  norm_num
  rw [natToLE_pos (show (32768 : Nat) ≠ 0 by norm_num)]
  norm_num
  rw [natToLE_pos (show (128 : Nat) ≠ 0 by norm_num)]
  norm_num
  rw [natToLE_zero]

/-- Counterexample to claim C3 as stated: the code's zero-operation
has opcode `0x00`, not `0x50`; and at `n = 2^31` the 32-bit coercions
in the byte loop make the payload `[0x00]` rather than the magnitude's
little-endian bytes. -/
theorem numEncodeClaim_counterexample :
    Lock.encodeBlockHeight 0 = [⟨0x00, none⟩] ∧
    numEncodeClaim 0 = [⟨0x50, none⟩] ∧
    Lock.encodeBlockHeight 0 ≠ numEncodeClaim 0 ∧
    Lock.encodeBlockHeight (2 ^ 31) = [⟨1, some [0]⟩] ∧
    Lock.encodeBlockHeight (2 ^ 31) ≠ numEncodeClaim (2 ^ 31) := by
  have he : Lock.encodeBlockHeight (2 ^ 31) = [⟨1, some [0]⟩] := by
    rw [Lock.encodeBlockHeight, if_neg (by norm_num), if_neg (by norm_num),
      if_neg (by norm_num)]
    have hneg : ¬((2 : Int) ^ 31 < 0) := by norm_num
    simp only [if_neg hneg, leLoop_two_pow_31]
    norm_num
  have hc : numEncodeClaim (2 ^ 31) = [⟨5, some [0, 0, 0, 128, 0]⟩] := by
    rw [numEncodeClaim, if_neg (by norm_num), if_neg (by norm_num),
      if_neg (by norm_num)]
    have hab : ((2 : Int) ^ 31).natAbs = 2147483648 := by norm_num
    rw [hab, natToLE_two_pow_31]
    norm_num
  refine ⟨by decide, by decide, by decide, he, ?_⟩
  rw [he, hc]
  decide

/-- Claim C3 (amended): within `[-(2^31 - 1), 2^31 - 1]` the encoder
follows the spec's priority rules, with the zero-operation emitted as
the zero-length-push opcode `0x00` (not `0x50`). -/
theorem number_encoder_rules (n : Int) (hlo : -(2 ^ 31 - 1) ≤ n)
    (hhi : n ≤ 2 ^ 31 - 1) :
    Lock.encodeBlockHeight n = numEncodeSpec n :=
  encode_eq_numEncodeSpec n hlo hhi

theorem number_encoder_rules_witness :
    ((-(2 ^ 31 - 1) : Int) ≤ 300 ∧ (300 : Int) ≤ 2 ^ 31 - 1) ∧
    Lock.encodeBlockHeight 300 = numEncodeSpec 300 :=
  ⟨⟨by norm_num, by norm_num⟩, number_encoder_rules 300 (by norm_num) (by norm_num)⟩

/-! ## Lock script recognition and decoding (C7) -/

/-- Claim C7: `isLock` is exactly the prefix/suffix test; `decode`
fails with the "not a valid Lock script" error exactly when `isLock`
fails, and otherwise returns the 20-byte slice after the prefix and its
push opcode (offset 41) and the codec-decoded bytes between the hash
field (offset 61) and the suffix. -/
theorem lock_script_decode (s : List Nat) :
    (Lock.isLock s = true ↔
      (Lock.LOCK_PREFIX_BYTES <+: s ∧ Lock.LOCK_SUFFIX_BYTES <:+ s)) ∧
    (Lock.decode s = Except.error "Script is not a valid Lock script" ↔
      Lock.isLock s = false) ∧
    (Lock.isLock s = true →
      Lock.decode s = Except.ok ⟨(s.drop 41).take 20,
        Lock.decodeBlockHeight ((s.drop 61).take (s.length - 12 - 61))⟩) := by
  refine ⟨?_, ?_, ?_⟩
  · rw [Lock.isLock]
    simp [List.isPrefixOf_iff_prefix, List.isSuffixOf_iff_suffix]
  · rw [Lock.decode]
    by_cases hl : Lock.isLock s
    · rw [if_pos hl]
      simp [hl]
    · rw [if_neg hl]
      simp only [Bool.not_eq_true] at hl
      simp [hl]
  · intro hl
    rw [Lock.decode, if_pos hl]
    dsimp only
    rw [show Lock.LOCK_PREFIX_BYTES.length = 40 from rfl,
      show Lock.LOCK_SUFFIX_BYTES.length = 12 from rfl]

theorem lock_script_decode_witness :
    Lock.isLock (Lock.LOCK_PREFIX_BYTES ++ Lock.LOCK_SUFFIX_BYTES) = true ∧
    Lock.decode (Lock.LOCK_PREFIX_BYTES ++ Lock.LOCK_SUFFIX_BYTES) =
      Except.ok
        ⟨((Lock.LOCK_PREFIX_BYTES ++ Lock.LOCK_SUFFIX_BYTES).drop 41).take 20,
          Lock.decodeBlockHeight
            (((Lock.LOCK_PREFIX_BYTES ++ Lock.LOCK_SUFFIX_BYTES).drop 61).take
              ((Lock.LOCK_PREFIX_BYTES ++ Lock.LOCK_SUFFIX_BYTES).length -
                12 - 61))⟩ :=
  ⟨by decide, (lock_script_decode _).2.2 (by decide)⟩

/-! ## Sigma decode lemmas -/

theorem decodeAux_append (sdk : Sdk) (i : Nat)
    (l1 l2 : List Sigma.Protocol) :
    Sigma.decodeAux sdk i (l1 ++ l2) =
      Sigma.decodeAux sdk i l1 ++ Sigma.decodeAux sdk (i + l1.length) l2 := by
  induction l1 generalizing i with
  | nil => simp [Sigma.decodeAux]
  | cons p rest ih =>
    simp only [List.cons_append, Sigma.decodeAux, List.length_cons]
    have hidx : i + 1 + rest.length = i + (rest.length + 1) := by omega
    cases Sigma.decodeOne sdk i p with
    | none =>
      simp only [List.append_eq]
      rw [ih (i + 1), hidx]
    | some r =>
      simp only [List.append_eq]
      rw [ih (i + 1), hidx]
      simp

/-! ## Claim theorems for the Sigma template -/

/-- Claim C5: `Sigma.decode` skips a SIGMA segment whose payload parses
to fewer than 4 sub-fields and continues with the remaining segments
(which keep their original indices); in particular a script with one
well-formed segment and one malformed segment decodes to exactly the
one well-formed record, with no exception. -/
theorem sigma_decode_skips_malformed :
    (∀ (sdk : Sdk) (pre post : List Sigma.Protocol) (bad : Sigma.Protocol)
      (chunks : List Chunk),
      bad.protocol = Sigma.SIGMA_LABEL →
      sdk.fromBinary bad.script = some chunks →
      chunks.length < 4 →
      Sigma.decode sdk ⟨pre ++ bad :: post⟩ =
        Sigma.decodeAux sdk 0 pre ++
          Sigma.decodeAux sdk (pre.length + 1) post) ∧
    Sigma.decode concreteSdk
      ⟨[⟨"SIGMA", goodSigmaScript, 0⟩, ⟨"SIGMA", badSigmaScript, 1⟩]⟩ =
      [{ bitcomIndex := some 0, algorithm := "BSM", address := "A",
         signature := [1, 2, 3], vin := 0, valid := none }] ∧
    Sigma.decode concreteSdk
      ⟨[⟨"SIGMA", badSigmaScript, 0⟩, ⟨"SIGMA", goodSigmaScript, 1⟩]⟩ =
      [{ bitcomIndex := some 1, algorithm := "BSM", address := "A",
         signature := [1, 2, 3], vin := 0, valid := none }] := by
  refine ⟨?_, by decide, by decide⟩
  intro sdk pre post bad chunks hlab hparse hlen
  have hone : Sigma.decodeOne sdk pre.length bad = none := by
    rw [Sigma.decodeOne, if_pos hlab, hparse]
    simp [hlen]
  rw [Sigma.decode, decodeAux_append]
  simp only [Nat.zero_add]
  rw [Sigma.decodeAux, hone]

theorem sigma_decode_skips_malformed_witness :
    ((⟨"SIGMA", badSigmaScript, 1⟩ : Sigma.Protocol).protocol =
        Sigma.SIGMA_LABEL ∧
      concreteSdk.fromBinary
        (⟨"SIGMA", badSigmaScript, 1⟩ : Sigma.Protocol).script =
        some [⟨1, some [65]⟩] ∧
      ([⟨1, some [65]⟩] : List Chunk).length < 4) ∧
    Sigma.decode concreteSdk
      ⟨[⟨"SIGMA", goodSigmaScript, 0⟩] ++
        (⟨"SIGMA", badSigmaScript, 1⟩ : Sigma.Protocol) :: []⟩ =
      Sigma.decodeAux concreteSdk 0 [⟨"SIGMA", goodSigmaScript, 0⟩] ++
        Sigma.decodeAux concreteSdk
          ([(⟨"SIGMA", goodSigmaScript, 0⟩ : Sigma.Protocol)].length + 1) [] :=
  ⟨⟨by decide, by decide, by decide⟩,
   sigma_decode_skips_malformed.1 concreteSdk _ [] _ [⟨1, some [65]⟩]
     (by decide) (by decide) (by decide)⟩

/-- Claim C4 (amended): decoding copies the third sub-field of a SIGMA
segment verbatim into `signatureBytes`, with no length validation; its
length is whatever the segment carried, for the BSM algorithm as for
any other. -/
theorem sigma_decode_signature_verbatim (sdk : Sdk)
    (bitcom : Sigma.BitComDecoded) (r : Sigma.SigmaData)
    (hmem : r ∈ Sigma.decode sdk bitcom) :
    ∃ p ∈ bitcom.protocols, p.protocol = Sigma.SIGMA_LABEL ∧
      ∃ chunks, sdk.fromBinary p.script = some chunks ∧
        4 ≤ chunks.length ∧
        r.signature = (chunks.getD 2 default).data.getD [] := by
  suffices haux : ∀ (i : Nat) (ps : List Sigma.Protocol),
      r ∈ Sigma.decodeAux sdk i ps →
      ∃ p ∈ ps, p.protocol = Sigma.SIGMA_LABEL ∧
        ∃ chunks, sdk.fromBinary p.script = some chunks ∧
          4 ≤ chunks.length ∧
          r.signature = (chunks.getD 2 default).data.getD [] by
    exact haux 0 bitcom.protocols hmem
  intro i ps
  induction ps generalizing i with
  | nil => simp [Sigma.decodeAux]
  | cons p rest ih =>
    intro hmem2
    rw [Sigma.decodeAux] at hmem2
    cases hone : Sigma.decodeOne sdk i p with
    | none =>
      rw [hone] at hmem2
      obtain ⟨q, hq, hrest⟩ := ih (i + 1) hmem2
      exact ⟨q, List.mem_cons_of_mem _ hq, hrest⟩
    | some r2 =>
      rw [hone] at hmem2
      rcases List.mem_cons.mp hmem2 with rfl | hmem3
      · refine ⟨p, List.mem_cons_self _ _, ?_⟩
        rw [Sigma.decodeOne] at hone
        by_cases hlab : p.protocol = Sigma.SIGMA_LABEL
        · rw [if_pos hlab] at hone
          cases hparse : sdk.fromBinary p.script with
          | none =>
            rw [hparse] at hone
            simp at hone
          | some chunks =>
            rw [hparse] at hone
            dsimp only at hone
            by_cases hlen : chunks.length < 4
            · rw [if_pos hlen] at hone
              simp at hone
            · rw [if_neg hlen] at hone
              simp only [Option.some.injEq] at hone
              refine ⟨hlab, chunks, rfl, by omega, ?_⟩
              rw [← hone]
        · rw [if_neg hlab] at hone
          simp at hone
      · obtain ⟨q, hq, hrest⟩ := ih (i + 1) hmem3
        exact ⟨q, List.mem_cons_of_mem _ hq, hrest⟩

theorem sigma_decode_signature_verbatim_witness :
    ({ bitcomIndex := some 0, algorithm := "BSM", address := "A",
       signature := [1, 2, 3], vin := 0,
       valid := none } : Sigma.SigmaData) ∈
      Sigma.decode concreteSdk ⟨[⟨"SIGMA", goodSigmaScript, 0⟩]⟩ ∧
    ∃ p ∈ ({ protocols := [⟨"SIGMA", goodSigmaScript, 0⟩] } :
        Sigma.BitComDecoded).protocols,
      p.protocol = Sigma.SIGMA_LABEL ∧
      ∃ chunks, concreteSdk.fromBinary p.script = some chunks ∧
        4 ≤ chunks.length ∧
        ({ bitcomIndex := some 0, algorithm := "BSM", address := "A",
           signature := [1, 2, 3], vin := 0,
           valid := none } : Sigma.SigmaData).signature =
          (chunks.getD 2 default).data.getD [] :=
  ⟨by decide,
   sigma_decode_signature_verbatim concreteSdk _ _ (by decide)⟩

/-- Counterexample to claim C4 as stated: a SIGMA segment whose
algorithm sub-field is `"BSM"` but whose signature sub-field has 3
bytes decodes to a record with a 3-byte `signatureBytes`, not 65. -/
theorem sigma_signature_length_counterexample :
    Sigma.decode concreteSdk ⟨[⟨"SIGMA", goodSigmaScript, 0⟩]⟩ =
      [{ bitcomIndex := some 0, algorithm := "BSM", address := "A",
         signature := [1, 2, 3], vin := 0, valid := none }] ∧
    Algorithm.BSM = "BSM" ∧
    ([1, 2, 3] : List Nat).length ≠ 65 :=
  ⟨by decide, rfl, by decide⟩

/-- One BSM recovery candidate succeeds exactly when recovery returns a
key that verifies the signature and derives the claimed address. -/
theorem bsmCandidate_iff (sdk : Sdk) (messageHash : List Nat)
    (address : String) (sig : Sig) (recovery : Nat) :
    Sigma.bsmCandidate sdk messageHash address sig recovery = true ↔
      ∃ pk, sdk.recoverPublicKey sig recovery (sdk.magicHash messageHash) =
          some pk ∧
        sdk.bsmVerify messageHash sig pk = true ∧
        sdk.pubKeyToAddress pk = address := by
  rw [Sigma.bsmCandidate]
  cases h : sdk.recoverPublicKey sig recovery (sdk.magicHash messageHash) with
  | none => simp
  | some pk => simp [Bool.and_eq_true, decide_eq_true_eq]

/-- Claim C1: for a BSM (LegacyMessage) record, `verifyWithHashes`
returns `true` and sets `valid := true` exactly when some recovery id
in `{0, 1, 2, 3}` recovers a public key (a failing recovery being
skipped) that re-verifies the signature against the magic-prefixed
digest and whose derived address equals the claimed address. -/
theorem sigma_verify_bsm_search (sdk : Sdk) (data : Sigma.SigmaData)
    (inputHash dataHash : List Nat) (rk : Option PrivKey)
    (halg : data.algorithm = Algorithm.BSM) :
    ((Sigma.verifyWithHashes sdk data inputHash dataHash rk).2 = true ∧
      (Sigma.verifyWithHashes sdk data inputHash dataHash rk).1.valid =
        some true) ↔
    ∃ sig, sdk.fromCompactB64 (sdk.toBase64 data.signature) = some sig ∧
      ∃ recovery, recovery < 4 ∧
        ∃ pk, sdk.recoverPublicKey sig recovery
            (sdk.magicHash (inputHash ++ dataHash)) = some pk ∧
          sdk.bsmVerify (inputHash ++ dataHash) sig pk = true ∧
          sdk.pubKeyToAddress pk = data.address := by
  have hne : data.algorithm ≠ Algorithm.BRC77 := by
    rw [halg]
    decide
  rw [Sigma.verifyWithHashes, if_neg hne]
  cases hp : sdk.fromCompactB64 (sdk.toBase64 data.signature) with
  | none => simp
  | some sig =>
    dsimp only
    by_cases hany : (List.range 4).any (fun recovery =>
        Sigma.bsmCandidate sdk (inputHash ++ dataHash) data.address sig
          recovery)
    · rw [if_pos hany]
      rw [List.any_eq_true] at hany
      obtain ⟨recovery, hr, hc⟩ := hany
      rw [List.mem_range] at hr
      rw [bsmCandidate_iff] at hc
      constructor
      · intro _
        exact ⟨sig, rfl, recovery, hr, hc⟩
      · intro _
        exact ⟨rfl, rfl⟩
    · rw [if_neg hany]
      simp only [Bool.false_eq_true, false_and, false_iff]
      rintro ⟨sig2, hsig2, recovery, hr, pk, hrec, hver, haddr⟩
      apply hany
      rw [List.any_eq_true]
      refine ⟨recovery, List.mem_range.mpr hr, ?_⟩
      rw [bsmCandidate_iff]
      cases hsig2
      exact ⟨pk, hrec, hver, haddr⟩

theorem sigma_verify_bsm_search_witness :
    ({ bitcomIndex := none, algorithm := "BSM", address := "A",
       signature := [], vin := 0,
       valid := none } : Sigma.SigmaData).algorithm = Algorithm.BSM ∧
    (((Sigma.verifyWithHashes concreteSdk
        { bitcomIndex := none, algorithm := "BSM", address := "A",
          signature := [], vin := 0, valid := none } [] [] none).2 = true ∧
      (Sigma.verifyWithHashes concreteSdk
        { bitcomIndex := none, algorithm := "BSM", address := "A",
          signature := [], vin := 0, valid := none } [] [] none).1.valid =
        some true) ↔
    ∃ sig, concreteSdk.fromCompactB64 (concreteSdk.toBase64 []) = some sig ∧
      ∃ recovery, recovery < 4 ∧
        ∃ pk, concreteSdk.recoverPublicKey sig recovery
            (concreteSdk.magicHash ([] ++ [])) = some pk ∧
          concreteSdk.bsmVerify ([] ++ []) sig pk = true ∧
          concreteSdk.pubKeyToAddress pk = "A") :=
  ⟨by decide,
   sigma_verify_bsm_search concreteSdk
     { bitcomIndex := none, algorithm := "BSM", address := "A",
       signature := [], vin := 0, valid := none } [] [] none (by decide)⟩

/-- Claim C6: `verifyWithHashes` is a total boolean function, and it
always records its result in the `valid` field: on every path,
including every modelled internal failure, the returned record's
`valid` is `some b` where `b` is the returned boolean (so a
non-successful verification returns `false` with `valid := some
false`). -/
theorem sigma_verify_always_records (sdk : Sdk) (data : Sigma.SigmaData)
    (inputHash dataHash : List Nat) (rk : Option PrivKey) :
    (Sigma.verifyWithHashes sdk data inputHash dataHash rk).1.valid =
      some ((Sigma.verifyWithHashes sdk data inputHash dataHash rk).2) := by
  rw [Sigma.verifyWithHashes]
  by_cases halg : data.algorithm = Algorithm.BRC77
  · rw [if_pos halg]
    cases sdk.signedMessageVerify (inputHash ++ dataHash) data.signature rk <;>
      rfl
  · rw [if_neg halg]
    cases sdk.fromCompactB64 (sdk.toBase64 data.signature) with
    | none => rfl
    | some sig =>
      dsimp only
      by_cases hany : (List.range 4).any (fun recovery =>
          Sigma.bsmCandidate sdk (inputHash ++ dataHash) data.address sig
            recovery)
      · rw [if_pos hany]
      · rw [if_neg hany]

/-- Claim C9: `verifyWithHashes` mutates only the `valid` field; every
other field of the record is returned unchanged. -/
theorem sigma_verify_frame (sdk : Sdk) (data : Sigma.SigmaData)
    (inputHash dataHash : List Nat) (rk : Option PrivKey) :
    (Sigma.verifyWithHashes sdk data inputHash dataHash rk).1.algorithm =
      data.algorithm ∧
    (Sigma.verifyWithHashes sdk data inputHash dataHash rk).1.address =
      data.address ∧
    (Sigma.verifyWithHashes sdk data inputHash dataHash rk).1.signature =
      data.signature ∧
    (Sigma.verifyWithHashes sdk data inputHash dataHash rk).1.vin =
      data.vin ∧
    (Sigma.verifyWithHashes sdk data inputHash dataHash rk).1.bitcomIndex =
      data.bitcomIndex := by
  rw [Sigma.verifyWithHashes]
  by_cases halg : data.algorithm = Algorithm.BRC77
  · rw [if_pos halg]
    cases sdk.signedMessageVerify (inputHash ++ dataHash) data.signature rk <;>
      exact ⟨rfl, rfl, rfl, rfl, rfl⟩
  · rw [if_neg halg]
    cases sdk.fromCompactB64 (sdk.toBase64 data.signature) with
    | none => exact ⟨rfl, rfl, rfl, rfl, rfl⟩
    | some sig =>
      dsimp only
      by_cases hany : (List.range 4).any (fun recovery =>
          Sigma.bsmCandidate sdk (inputHash ++ dataHash) data.address sig
            recovery)
      · rw [if_pos hany]
        exact ⟨rfl, rfl, rfl, rfl, rfl⟩
      · rw [if_neg hany]
        exact ⟨rfl, rfl, rfl, rfl, rfl⟩

/-- Claim C8: the record produced by `Sigma.sign` has `valid := some
true`, the address derived from the private key, the requested
algorithm (default BSM), and the requested vin (default 0). -/
theorem sigma_sign_fields (sdk : Sdk) (inputHash dataHash : List Nat)
    (privateKey : PrivKey) (options : Sigma.SigmaOptions) :
    (Sigma.sign sdk inputHash dataHash privateKey options).valid =
      some true ∧
    (Sigma.sign sdk inputHash dataHash privateKey options).address =
      sdk.toAddress privateKey ∧
    (Sigma.sign sdk inputHash dataHash privateKey options).algorithm =
      options.algorithm.getD Algorithm.BSM ∧
    (Sigma.sign sdk inputHash dataHash privateKey options).vin =
      options.vin.getD 0 :=
  ⟨rfl, rfl, rfl, rfl⟩

/-- Claim C10: `Sigma.unlock` always throws the "SIGMA signatures
cannot be unlocked" error; it never produces an unlocking result. -/
theorem sigma_unlock_always_throws (s : Sigma.SigmaData) :
    Sigma.unlock s = Except.error "SIGMA signatures cannot be unlocked" ∧
    ∀ u : Unit, Sigma.unlock s ≠ Except.ok u := by
  refine ⟨rfl, fun u h => ?_⟩
  simp [Sigma.unlock] at h

theorem sigma_unlock_always_throws_witness :
    Sigma.unlock ({ bitcomIndex := none, algorithm := "BSM",
                    address := "A", signature := [], vin := 0,
                    valid := none } : Sigma.SigmaData) =
      Except.error "SIGMA signatures cannot be unlocked" :=
  (sigma_unlock_always_throws
    ({ bitcomIndex := none, algorithm := "BSM", address := "A",
       signature := [], vin := 0, valid := none } : Sigma.SigmaData)).1
